import Mathlib

/-!
Verification development for the `barter-data-rs` market-data normalization
library.  The data model (`src/model.rs`) is embedded shallowly: Rust structs
become Lean structures, enums become inductives, `Display`/`Debug`
implementations become `String`-valued functions, derived `PartialEq` /
`PartialOrd` / `Ord` implementations become explicit comparison functions with
the same field-by-field lexicographic semantics.  Components of the pipeline
whose code is not part of the two source files (the Subscription Registry, the
Book Updater state machine and the Multiplexing Transformer) are modelled from
the specification; such definitions carry a doc comment starting with
`Modelled from the spec:`.
-/

set_option linter.unnecessarySimpa false
set_option linter.unreachableTactic false
set_option linter.unusedTactic false

namespace BarterData

/-! ### Ordering helpers

Rust's derived `Ord` compares structs field by field and enum variants by
declaration order; strings compare byte-lexicographically (which coincides with
code-point-lexicographic order for UTF-8 data).  We replay that with explicit
`Ordering`-valued comparison functions and a small kit of laws. -/

/-- The three laws making an `Ordering`-valued comparison a total order:
it detects equality exactly, it is antisymmetric under `Ordering.swap`, and
strict precedence is transitive. -/
structure LawfulCmp {α : Type} (cmp : α → α → Ordering) : Prop where
  eq_iff : ∀ a b, cmp a b = Ordering.eq ↔ a = b
  swap_eq : ∀ a b, (cmp a b).swap = cmp b a
  lt_trans : ∀ a b c, cmp a b = Ordering.lt → cmp b c = Ordering.lt →
    cmp a c = Ordering.lt

theorem then_eq_eq_iff (o p : Ordering) :
    o.then p = Ordering.eq ↔ o = Ordering.eq ∧ p = Ordering.eq := by
  cases o <;> simp [Ordering.then]

theorem then_eq_lt_iff (o p : Ordering) :
    o.then p = Ordering.lt ↔ o = Ordering.lt ∨ (o = Ordering.eq ∧ p = Ordering.lt) := by
  cases o <;> simp [Ordering.then]

theorem then_swap (o p : Ordering) : (o.then p).swap = o.swap.then p.swap := by
  cases o <;> cases p <;> rfl

theorem lawfulCmp_natCompare : LawfulCmp (fun a b : Nat => compare a b) := by
  refine ⟨fun a b => Nat.compare_eq_eq, fun a b => ?_, fun a b c h1 h2 => ?_⟩
  · rcases Nat.lt_trichotomy a b with h | h | h
    · rw [Nat.compare_eq_lt.mpr h, (Nat.compare_eq_gt (a := b)).mpr h]; rfl
    · subst h; rw [Nat.compare_eq_eq.mpr rfl]; rfl
    · rw [Nat.compare_eq_gt.mpr h, (Nat.compare_eq_lt (a := b)).mpr h]; rfl
  · exact Nat.compare_eq_lt.mpr
      (Nat.lt_trans (Nat.compare_eq_lt.mp h1) (Nat.compare_eq_lt.mp h2))

/-- Comparison of characters by code point, matching Rust byte order. -/
def charCmp (a b : Char) : Ordering := compare a.toNat b.toNat

theorem charCmp_lawful : LawfulCmp charCmp := by
  refine ⟨fun a b => ?_, fun a b => lawfulCmp_natCompare.swap_eq a.toNat b.toNat,
    fun a b c => lawfulCmp_natCompare.lt_trans a.toNat b.toNat c.toNat⟩
  unfold charCmp
  rw [Nat.compare_eq_eq]
  exact ⟨fun h => Char.ext (UInt32.toNat.inj h), fun h => by rw [h]⟩

/-- Lexicographic comparison of character lists, matching Rust `str` order. -/
def listCharCmp : List Char → List Char → Ordering
  | [], [] => Ordering.eq
  | [], _ :: _ => Ordering.lt
  | _ :: _, [] => Ordering.gt
  | a :: as, b :: bs => (charCmp a b).then (listCharCmp as bs)

theorem listCharCmp_eq_iff (a b : List Char) :
    listCharCmp a b = Ordering.eq ↔ a = b := by
  induction a generalizing b with
  | nil => cases b <;> simp [listCharCmp]
  | cons x xs ih =>
    cases b with
    | nil => simp [listCharCmp]
    | cons y ys =>
      rw [listCharCmp, then_eq_eq_iff, charCmp_lawful.eq_iff, ih]
      simp

theorem listCharCmp_swap (a b : List Char) :
    (listCharCmp a b).swap = listCharCmp b a := by
  induction a generalizing b with
  | nil => cases b <;> rfl
  | cons x xs ih =>
    cases b with
    | nil => rfl
    | cons y ys =>
      rw [listCharCmp, listCharCmp, then_swap, charCmp_lawful.swap_eq, ih]

theorem listCharCmp_lt_trans (a b c : List Char) :
    listCharCmp a b = Ordering.lt → listCharCmp b c = Ordering.lt →
    listCharCmp a c = Ordering.lt := by
  induction a generalizing b c with
  | nil =>
    cases b with
    | nil => intro h; exact absurd h (by simp [listCharCmp])
    | cons y ys => cases c <;> simp [listCharCmp]
  | cons x xs ih =>
    cases b with
    | nil => intro h; exact absurd h (by simp [listCharCmp])
    | cons y ys =>
      cases c with
      | nil => intro _ h; exact absurd h (by simp [listCharCmp])
      | cons z zs =>
        rw [listCharCmp, listCharCmp, listCharCmp, then_eq_lt_iff,
          then_eq_lt_iff, then_eq_lt_iff]
        rintro (h1 | ⟨h1, h1'⟩) (h2 | ⟨h2, h2'⟩)
        · exact Or.inl (charCmp_lawful.lt_trans x y z h1 h2)
        · have := (charCmp_lawful.eq_iff y z).mp h2; subst this
          exact Or.inl h1
        · have := (charCmp_lawful.eq_iff x y).mp h1; subst this
          exact Or.inl h2
        · have := (charCmp_lawful.eq_iff x y).mp h1; subst this
          exact Or.inr ⟨h2, ih ys zs h1' h2'⟩

theorem listCharCmp_lawful : LawfulCmp listCharCmp :=
  ⟨listCharCmp_eq_iff, listCharCmp_swap, listCharCmp_lt_trans⟩

/-- String comparison, matching Rust's `Ord` for `String`. -/
def strCmp (a b : String) : Ordering := listCharCmp a.data b.data

theorem strCmp_lawful : LawfulCmp strCmp := by
  refine ⟨fun a b => ?_, fun a b => listCharCmp_lawful.swap_eq a.data b.data,
    fun a b c => listCharCmp_lawful.lt_trans a.data b.data c.data⟩
  rw [strCmp, listCharCmp_lawful.eq_iff]
  exact ⟨fun h => by cases a; cases b; simp_all, fun h => by rw [h]⟩

/-- Lexicographic combination of two lawful comparisons is lawful.  This is
exactly how Rust's derive expands for a two-field struct. -/
theorem lawfulCmp_then {α β : Type} {ca : α → α → Ordering}
    {cb : β → β → Ordering} (ha : LawfulCmp ca) (hb : LawfulCmp cb) :
    LawfulCmp (fun p q : α × β => (ca p.1 q.1).then (cb p.2 q.2)) := by
  refine ⟨fun p q => ?_, fun p q => ?_, fun p q r h1 h2 => ?_⟩
  · rw [then_eq_eq_iff, ha.eq_iff, hb.eq_iff, Prod.ext_iff]
  · rw [then_swap, ha.swap_eq, hb.swap_eq]
  · rw [then_eq_lt_iff] at h1 h2 ⊢
    rcases h1 with h1 | ⟨h1, h1'⟩
    · rcases h2 with h2 | ⟨h2, h2'⟩
      · exact Or.inl (ha.lt_trans _ _ _ h1 h2)
      · have := (ha.eq_iff _ _).mp h2; rw [← this]; exact Or.inl h1
    · rcases h2 with h2 | ⟨h2, h2'⟩
      · have := (ha.eq_iff _ _).mp h1; rw [this]; exact Or.inl h2
      · have e1 := (ha.eq_iff _ _).mp h1
        have e2 := (ha.eq_iff _ _).mp h2
        refine Or.inr ⟨(ha.eq_iff _ _).mpr (e1.trans e2), hb.lt_trans _ _ _ h1' h2'⟩

/-- Transport of lawfulness along an injective projection. -/
theorem lawfulCmp_comap {α β : Type} {cmp : α → α → Ordering}
    (h : LawfulCmp cmp) (f : β → α) (hf : Function.Injective f) :
    LawfulCmp (fun x y => cmp (f x) (f y)) := by
  refine ⟨fun a b => ?_, fun a b => h.swap_eq (f a) (f b),
    fun a b c => h.lt_trans (f a) (f b) (f c)⟩
  rw [h.eq_iff]
  exact ⟨fun hx => hf hx, fun hx => by rw [hx]⟩

/-! ### Data model (embedding of `src/model.rs`) -/

/-- Modelled from the spec: `InstrumentKind` lives in the external
`barter_integration` crate; the spec only says an Instrument carries an
"instrument kind", so a small closed enum stands in for it. -/
inductive InstrumentKind
  | spot
  | futurePerpetual
deriving DecidableEq

/-- Variant-order comparison, the semantics of a derived `Ord` on a C-like
Rust enum. -/
def InstrumentKind.cmp : InstrumentKind → InstrumentKind → Ordering
  | .spot, .spot => Ordering.eq
  | .spot, .futurePerpetual => Ordering.lt
  | .futurePerpetual, .spot => Ordering.gt
  | .futurePerpetual, .futurePerpetual => Ordering.eq

/-- Modelled from the spec: `Instrument` (external `barter_integration`) is the
exchange-agnostic identity of a tradable pair: base symbol, quote symbol and
instrument kind, used as a map/equality key. -/
@[ext]
structure Instrument where
  base : String
  quote : String
  kind : InstrumentKind
deriving DecidableEq

/-- Field-by-field lexicographic comparison, the semantics of a derived
`Ord` on the external `Instrument` struct. -/
def Instrument.cmp (a b : Instrument) : Ordering :=
  (strCmp a.base b.base).then
    ((strCmp a.quote b.quote).then (InstrumentKind.cmp a.kind b.kind))

/-- Modelled from the spec: the `Display` of `Instrument` lives in the
external `barter_integration` crate; the claims treat it as an opaque
rendering, so any concrete executable rendering serves. -/
def Instrument.display (i : Instrument) : String :=
  i.base ++ "_" ++ i.quote

/-- `Interval(pub String)`, `src/model.rs` line 207. -/
@[ext]
structure Interval where
  tok : String
deriving DecidableEq

/-- `impl From<S> for Interval` (`src/model.rs` lines 233-240): wraps the
string unchanged. -/
def Interval.fromStr (s : String) : Interval := ⟨s⟩

/-- `Interval::new` (`src/model.rs` lines 242-250): delegates to `From`. -/
def Interval.new (s : String) : Interval := Interval.fromStr s

/-- `impl Display for Interval` (`src/model.rs` lines 215-219): writes the
inner string verbatim. -/
def Interval.display (i : Interval) : String := i.tok

/-- `impl Debug for Interval` (`src/model.rs` lines 209-213): identical to
`Display`. -/
def Interval.debug (i : Interval) : String := i.tok

/-- `impl AsRef<str> for Interval` (`src/model.rs` lines 221-225). -/
def Interval.asRef (i : Interval) : String := i.tok

/-- `impl Deserialize for Interval` (`src/model.rs` lines 227-231):
deserializes a `String` and maps `Interval::new` over it. -/
def Interval.deserialize (s : String) : Interval := Interval.new s

/-- Derived `Ord` on the `Interval` new type: the inner string's order. -/
def Interval.cmp (a b : Interval) : Ordering := strCmp a.tok b.tok

/-- `StreamKind` (`src/model.rs` lines 117-123). -/
inductive StreamKind
  | trades
  | candles (interval : Interval)
  | klines (interval : Interval)
  | orderBookDeltas
  | orderBooks
deriving DecidableEq

/-- `impl Display for StreamKind` (`src/model.rs` lines 125-136). -/
def StreamKind.display : StreamKind → String
  | .trades => "trades"
  | .candles interval => "candles_" ++ interval.display
  | .klines interval => "klines_" ++ interval.display
  | .orderBookDeltas => "order_book_deltas"
  | .orderBooks => "order_books"

/-- Derived `Ord` on `StreamKind`: variant order first, then the payload. -/
def StreamKind.cmp : StreamKind → StreamKind → Ordering
  | .trades, .trades => Ordering.eq
  | .trades, _ => Ordering.lt
  | _, .trades => Ordering.gt
  | .candles i, .candles j => Interval.cmp i j
  | .candles _, _ => Ordering.lt
  | _, .candles _ => Ordering.gt
  | .klines i, .klines j => Interval.cmp i j
  | .klines _, _ => Ordering.lt
  | _, .klines _ => Ordering.gt
  | .orderBookDeltas, .orderBookDeltas => Ordering.eq
  | .orderBookDeltas, _ => Ordering.lt
  | _, .orderBookDeltas => Ordering.gt
  | .orderBooks, .orderBooks => Ordering.eq

/-- `SubscriptionId(pub String)` (`src/model.rs` line 168). -/
@[ext]
structure SubscriptionId where
  str : String
deriving DecidableEq

/-- `impl From<S> for SubscriptionId` (`src/model.rs` lines 194-201): wraps
the string unchanged. -/
def SubscriptionId.fromStr (s : String) : SubscriptionId := ⟨s⟩

/-- `impl Display for SubscriptionId` (`src/model.rs` lines 176-180). -/
def SubscriptionId.display (s : SubscriptionId) : String := s.str

/-- `impl Debug for SubscriptionId` (`src/model.rs` lines 170-174). -/
def SubscriptionId.debug (s : SubscriptionId) : String := s.str

/-- `impl AsRef<str> for SubscriptionId` (`src/model.rs` lines 182-186). -/
def SubscriptionId.asRef (s : SubscriptionId) : String := s.str

/-- `impl Deserialize for SubscriptionId` (`src/model.rs` lines 188-192):
deserializes a `String` and wraps it with the `SubscriptionId` constructor. -/
def SubscriptionId.deserialize (s : String) : SubscriptionId := ⟨s⟩

/-- `Subscription` (`src/model.rs` lines 59-63). -/
@[ext]
structure Subscription where
  instrument : Instrument
  kind : StreamKind
deriving DecidableEq

/-- `Subscription::new` (`src/model.rs` lines 101-112). -/
def Subscription.new (instrument : Instrument) (kind : StreamKind) :
    Subscription := ⟨instrument, kind⟩

/-- `impl Debug for Subscription` (`src/model.rs` lines 65-69):
`write!(f, "{}{}", self.kind, self.instrument)` — the kind's rendering
immediately followed by the instrument's rendering. -/
def Subscription.debugFmt (s : Subscription) : String :=
  s.kind.display ++ s.instrument.display

/-- `impl Display for Subscription` (`src/model.rs` lines 71-75): delegates
to the `Debug` rendering via `write!(f, "{:?}", self)`. -/
def Subscription.displayFmt (s : Subscription) : String :=
  Subscription.debugFmt s

/-- Derived `Ord` on `Subscription`: instrument first, then kind. -/
def Subscription.cmp (a b : Subscription) : Ordering :=
  (Instrument.cmp a.instrument b.instrument).then
    (StreamKind.cmp a.kind b.kind)

/-- `Sequence` new type from the external `barter_integration` crate, an
unsigned counter (`Sequence(0)` is its zero, see `StreamMeta::new`).  The
machine width never comes into play for the claims, so the counter is a
natural number. -/
@[ext]
structure Sequence where
  val : Nat
deriving DecidableEq

/-- `StreamMeta` (`src/model.rs` lines 253-257). -/
structure StreamMeta where
  sequence : Sequence
  subscription : Subscription

/-- `StreamMeta::new` (`src/model.rs` lines 259-267): the counter starts at
`Sequence(0)`. -/
def StreamMeta.new (subscription : Subscription) : StreamMeta :=
  ⟨⟨0⟩, subscription⟩

/-! ### Claims about the plain data model -/

/-- Claim C5: for every non-empty string token `s`, `Interval::new(s)`
renders back to `s` via `Display`, and deserializing an `Interval` from `s`
yields the same `Interval` as `Interval::new(s)`: the token is stored and
rendered verbatim with no internal parsing. -/
theorem claim_c5_interval_roundtrip (s : String) (_h : s ≠ "") :
    (Interval.new s).display = s ∧ Interval.deserialize s = Interval.new s :=
  ⟨rfl, rfl⟩

/-- Witness for C5 at the concrete token `"1m"`. -/
theorem claim_c5_witness :
    ("1m" : String) ≠ "" ∧
      ((Interval.new "1m").display = "1m" ∧
        Interval.deserialize "1m" = Interval.new "1m") :=
  ⟨by decide, claim_c5_interval_roundtrip "1m" (by decide)⟩

/-- Claim C6: the canonical `Display` rendering of each `StreamKind` variant
is exactly `"trades"`, `"candles_"` followed by the interval's token,
`"klines_"` followed by the interval's token, `"order_book_deltas"` and
`"order_books"`; in particular `Candles("1m")` renders as `"candles_1m"`. -/
theorem claim_c6_streamkind_display :
    StreamKind.display .trades = "trades"
    ∧ (∀ i : Interval, StreamKind.display (.candles i) = "candles_" ++ i.tok)
    ∧ (∀ i : Interval, StreamKind.display (.klines i) = "klines_" ++ i.tok)
    ∧ StreamKind.display .orderBookDeltas = "order_book_deltas"
    ∧ StreamKind.display .orderBooks = "order_books"
    ∧ StreamKind.display (.candles (Interval.new "1m")) = "candles_1m" :=
  ⟨rfl, fun _ => rfl, fun _ => rfl, rfl, rfl, by decide⟩

/-- Claim C9: for every `Subscription`, the `Debug` and `Display` renderings
are identical, and equal to the `StreamKind`'s rendering immediately followed
by the `Instrument`'s rendering, with no separator. -/
theorem claim_c9_subscription_format (s : Subscription) :
    Subscription.debugFmt s = s.kind.display ++ s.instrument.display
    ∧ Subscription.displayFmt s = Subscription.debugFmt s :=
  ⟨rfl, rfl⟩

/-- Claim C10: `SubscriptionId` preserves its underlying string exactly:
construction from a string wraps it unchanged, `Display`/`Debug`/`AsRef`
return it verbatim, and deserializing from `s` yields `SubscriptionId(s)`. -/
theorem claim_c10_subscription_id_verbatim (s : String) :
    SubscriptionId.fromStr s = ⟨s⟩
    ∧ (SubscriptionId.fromStr s).display = s
    ∧ (SubscriptionId.fromStr s).debug = s
    ∧ (SubscriptionId.fromStr s).asRef = s
    ∧ SubscriptionId.deserialize s = SubscriptionId.fromStr s :=
  ⟨rfl, rfl, rfl, rfl, rfl⟩

/-! ### Lawfulness of the derived orderings -/

theorem intervalCmp_lawful : LawfulCmp Interval.cmp :=
  lawfulCmp_comap strCmp_lawful Interval.tok (fun _ _ h => Interval.ext h)

theorem instrumentKindCmp_lawful : LawfulCmp InstrumentKind.cmp := by
  refine ⟨fun a b => ?_, fun a b => ?_, fun a b c => ?_⟩
  · cases a <;> cases b <;> simp [InstrumentKind.cmp]
  · cases a <;> cases b <;> rfl
  · cases a <;> cases b <;> cases c <;> simp [InstrumentKind.cmp]

/-- The tuple of an `Instrument`'s fields, in declaration order. -/
def instrumentKey (i : Instrument) : String × String × InstrumentKind :=
  (i.base, (i.quote, i.kind))

theorem instrumentKey_injective : Function.Injective instrumentKey := by
  intro a b h
  cases a; cases b
  simpa [instrumentKey] using h

theorem instrumentCmp_lawful : LawfulCmp Instrument.cmp := by
  exact lawfulCmp_comap
    (lawfulCmp_then strCmp_lawful
      (lawfulCmp_then strCmp_lawful instrumentKindCmp_lawful))
    instrumentKey instrumentKey_injective

theorem streamKindCmp_lawful : LawfulCmp StreamKind.cmp := by
  refine ⟨fun a b => ?_, fun a b => ?_, fun a b c h1 h2 => ?_⟩
  · cases a <;> cases b <;> simp [StreamKind.cmp, intervalCmp_lawful.eq_iff]
  · cases a <;> cases b <;>
      first
      | rfl
      | exact intervalCmp_lawful.swap_eq _ _
  · cases a <;> cases b <;> cases c <;>
      simp only [StreamKind.cmp] at h1 h2 ⊢ <;>
      first
      | rfl
      | exact intervalCmp_lawful.lt_trans _ _ _ h1 h2
      | simp_all

/-- The pair of a `Subscription`'s fields, in declaration order. -/
def subscriptionKey (s : Subscription) : Instrument × StreamKind :=
  (s.instrument, s.kind)

theorem subscriptionKey_injective : Function.Injective subscriptionKey := by
  intro a b h
  cases a; cases b
  simpa [subscriptionKey] using h

theorem subscriptionCmp_lawful : LawfulCmp Subscription.cmp := by
  exact lawfulCmp_comap
    (lawfulCmp_then instrumentCmp_lawful streamKindCmp_lawful)
    subscriptionKey subscriptionKey_injective

/-- Claim C8: equality of `Subscription` is structural (two Subscriptions are
equal iff their `Instrument` components and `StreamKind` components are
equal), and the derived ordering is the total lexicographic order over
`(instrument, kind)`: it is the lexicographic combination of the component
orders, detects equality exactly, is antisymmetric under `Ordering.swap`,
and strict precedence is transitive. -/
theorem claim_c8_subscription_structural (s t : Subscription) :
    (s = t ↔ s.instrument = t.instrument ∧ s.kind = t.kind)
    ∧ Subscription.cmp s t =
        (Instrument.cmp s.instrument t.instrument).then
          (StreamKind.cmp s.kind t.kind)
    ∧ (Subscription.cmp s t = Ordering.eq ↔ s = t)
    ∧ (Subscription.cmp s t).swap = Subscription.cmp t s
    ∧ (∀ u, Subscription.cmp s t = Ordering.lt →
        Subscription.cmp t u = Ordering.lt →
        Subscription.cmp s u = Ordering.lt) :=
  ⟨Subscription.ext_iff, rfl, subscriptionCmp_lawful.eq_iff s t,
    subscriptionCmp_lawful.swap_eq s t,
    fun u => subscriptionCmp_lawful.lt_trans s t u⟩

/-! ### Normalized event model and its derived partial equality / order

`MarketEvent`, `MarketData` and `Trade` only derive `PartialEq`/`PartialOrd`
(not `Eq`/`Ord`) because `Trade` holds two `f64` fields.  An `f64` is embedded
as either NaN or a finite rational (`-0.0` and `0.0` are identified, exactly as
IEEE `==` identifies them); NaN compares equal to nothing — itself included —
and is unordered against everything, which is the IEEE behaviour the derived
Rust implementations inherit. -/

inductive F64
  | nan
  | val (q : ℚ)
deriving DecidableEq

/-- Rust `f64::eq`: false whenever either side is NaN. -/
def F64.beq : F64 → F64 → Bool
  | .val a, .val b => decide (a = b)
  | _, _ => false

/-- Rust `f64::partial_cmp`: `None` whenever either side is NaN. -/
def F64.pcmp : F64 → F64 → Option Ordering
  | .val a, .val b => some (compare a b)
  | _, _ => none

/-- `Direction` (`src/model.rs` lines 51-55). -/
inductive Direction
  | buy
  | sell
deriving DecidableEq

/-- Derived `Ord` on `Direction`: variant order. -/
def Direction.cmp : Direction → Direction → Ordering
  | .buy, .buy => Ordering.eq
  | .buy, .sell => Ordering.lt
  | .sell, .buy => Ordering.gt
  | .sell, .sell => Ordering.eq

/-- `Trade` (`src/model.rs` lines 38-48).  The two `chrono` timestamps are
totally ordered instants, embedded as integers. -/
@[ext]
structure Trade where
  id : String
  exchange : String
  instrument : Instrument
  receivedTimestamp : Int
  exchangeTimestamp : Int
  price : F64
  quantity : F64
  direction : Direction
deriving DecidableEq

/-- Derived `PartialEq` on `Trade`: field-by-field conjunction, with IEEE
equality on the two float fields. -/
def Trade.beq (a b : Trade) : Bool :=
  decide (a.id = b.id) && decide (a.exchange = b.exchange)
    && decide (a.instrument = b.instrument)
    && decide (a.receivedTimestamp = b.receivedTimestamp)
    && decide (a.exchangeTimestamp = b.exchangeTimestamp)
    && F64.beq a.price b.price && F64.beq a.quantity b.quantity
    && decide (a.direction = b.direction)

/-- Rust's derived `PartialOrd` chaining: if the first comparison is
`Some(Equal)` move on to the next field, otherwise return it. -/
def pthen : Option Ordering → Option Ordering → Option Ordering
  | some Ordering.eq, p => p
  | o, _ => o

/-- Derived `PartialOrd` on `Trade`: lexicographic over the fields in
declaration order, with IEEE partial comparison on the two float fields. -/
def Trade.pcmp (a b : Trade) : Option Ordering :=
  pthen (some (strCmp a.id b.id))
    (pthen (some (strCmp a.exchange b.exchange))
      (pthen (some (Instrument.cmp a.instrument b.instrument))
        (pthen (some (compare a.receivedTimestamp b.receivedTimestamp))
          (pthen (some (compare a.exchangeTimestamp b.exchangeTimestamp))
            (pthen (F64.pcmp a.price b.price)
              (pthen (F64.pcmp a.quantity b.quantity)
                (some (Direction.cmp a.direction b.direction))))))))

/-- `MarketData` (`src/model.rs` lines 30-35). -/
inductive MarketData
  | trade (t : Trade)
  | candle
  | kline
  | orderBook
deriving DecidableEq

/-- Derived `PartialEq` on `MarketData`. -/
def MarketData.beq : MarketData → MarketData → Bool
  | .trade a, .trade b => Trade.beq a b
  | .candle, .candle => true
  | .kline, .kline => true
  | .orderBook, .orderBook => true
  | _, _ => false

/-- Derived `PartialOrd` on `MarketData`: variant order first, then the
payload. -/
def MarketData.pcmp : MarketData → MarketData → Option Ordering
  | .trade a, .trade b => Trade.pcmp a b
  | .trade _, _ => some Ordering.lt
  | _, .trade _ => some Ordering.gt
  | .candle, .candle => some Ordering.eq
  | .candle, _ => some Ordering.lt
  | _, .candle => some Ordering.gt
  | .kline, .kline => some Ordering.eq
  | .kline, _ => some Ordering.lt
  | _, .kline => some Ordering.gt
  | .orderBook, .orderBook => some Ordering.eq

/-- `MarketEvent` (`src/model.rs` lines 13-17). -/
@[ext]
structure MarketEvent where
  sequence : Sequence
  data : MarketData
deriving DecidableEq

/-- `MarketEvent::new` (`src/model.rs` lines 19-26). -/
def MarketEvent.new (sequence : Sequence) (data : MarketData) : MarketEvent :=
  ⟨sequence, data⟩

/-- Derived `PartialEq` on `MarketEvent`: sequence and payload. -/
def MarketEvent.beq (a b : MarketEvent) : Bool :=
  decide (a.sequence = b.sequence) && MarketData.beq a.data b.data

/-- Derived `PartialOrd` on `MarketEvent`: lexicographic over
`(sequence, data)`. -/
def MarketEvent.pcmp (a b : MarketEvent) : Option Ordering :=
  pthen (some (compare a.sequence.val b.sequence.val))
    (MarketData.pcmp a.data b.data)

/-- No float field of the trade is NaN. -/
def Trade.noNaN (t : Trade) : Prop :=
  t.price ≠ F64.nan ∧ t.quantity ≠ F64.nan

/-- No float field of the payload is NaN. -/
def MarketData.noNaN : MarketData → Prop
  | .trade t => t.noNaN
  | _ => True

/-- No float field of the event is NaN. -/
def MarketEvent.noNaN (e : MarketEvent) : Prop := e.data.noNaN

theorem pthen_eq_some_eq (o p : Option Ordering) :
    pthen o p = some Ordering.eq ↔ o = some Ordering.eq ∧ p = some Ordering.eq := by
  cases o with
  | none => simp [pthen]
  | some o' => cases o' <;> simp [pthen]

theorem pthen_isSome (o p : Option Ordering) (ho : o.isSome = true)
    (hp : p.isSome = true) : (pthen o p).isSome = true := by
  cases o with
  | none => exact absurd ho (by simp)
  | some o' => cases o' <;> simpa [pthen]

theorem f64_beq_iff (a b : F64) (ha : a ≠ F64.nan) (hb : b ≠ F64.nan) :
    F64.beq a b = true ↔ a = b := by
  cases a <;> cases b <;> simp_all [F64.beq]

theorem f64_pcmp_isSome (a b : F64) (ha : a ≠ F64.nan) (hb : b ≠ F64.nan) :
    (F64.pcmp a b).isSome = true := by
  cases a <;> cases b <;> simp_all [F64.pcmp]

theorem f64_pcmp_eq_iff (a b : F64) (ha : a ≠ F64.nan) (hb : b ≠ F64.nan) :
    F64.pcmp a b = some Ordering.eq ↔ a = b := by
  cases a <;> cases b <;> simp_all [F64.pcmp, compare_eq_iff_eq]

theorem direction_cmp_eq_iff (a b : Direction) :
    Direction.cmp a b = Ordering.eq ↔ a = b := by
  cases a <;> cases b <;> simp [Direction.cmp]

theorem trade_beq_iff (a b : Trade) (ha : a.noNaN) (hb : b.noNaN) :
    Trade.beq a b = true ↔ a = b := by
  obtain ⟨ha1, ha2⟩ := ha
  obtain ⟨hb1, hb2⟩ := hb
  rw [Trade.beq, Trade.ext_iff]
  simp [Bool.and_eq_true, decide_eq_true_eq, f64_beq_iff _ _ ha1 hb1,
    f64_beq_iff _ _ ha2 hb2, and_assoc]

theorem trade_pcmp_isSome (a b : Trade) (ha : a.noNaN) (hb : b.noNaN) :
    (Trade.pcmp a b).isSome = true := by
  obtain ⟨ha1, ha2⟩ := ha
  obtain ⟨hb1, hb2⟩ := hb
  refine pthen_isSome _ _ (by simp) (pthen_isSome _ _ (by simp)
    (pthen_isSome _ _ (by simp) (pthen_isSome _ _ (by simp)
      (pthen_isSome _ _ (by simp)
        (pthen_isSome _ _ (f64_pcmp_isSome _ _ ha1 hb1)
          (pthen_isSome _ _ (f64_pcmp_isSome _ _ ha2 hb2) (by simp)))))))

theorem trade_pcmp_eq_iff (a b : Trade) (ha : a.noNaN) (hb : b.noNaN) :
    Trade.pcmp a b = some Ordering.eq ↔ a = b := by
  obtain ⟨ha1, ha2⟩ := ha
  obtain ⟨hb1, hb2⟩ := hb
  rw [Trade.pcmp, Trade.ext_iff]
  simp only [pthen_eq_some_eq, Option.some.injEq]
  rw [strCmp_lawful.eq_iff, strCmp_lawful.eq_iff, instrumentCmp_lawful.eq_iff]
  simp [compare_eq_iff_eq, f64_pcmp_eq_iff _ _ ha1 hb1,
    f64_pcmp_eq_iff _ _ ha2 hb2, direction_cmp_eq_iff, and_assoc]

theorem marketData_beq_iff (a b : MarketData) (ha : a.noNaN) (hb : b.noNaN) :
    MarketData.beq a b = true ↔ a = b := by
  cases a <;> cases b <;>
    simp only [MarketData.beq, MarketData.noNaN] at ha hb ⊢ <;>
    first
    | simpa using trade_beq_iff _ _ ha hb
    | simp

theorem marketData_pcmp_isSome (a b : MarketData) (ha : a.noNaN)
    (hb : b.noNaN) : (MarketData.pcmp a b).isSome = true := by
  cases a <;> cases b <;>
    simp only [MarketData.pcmp, MarketData.noNaN] at ha hb ⊢ <;>
    first
    | simp
    | exact trade_pcmp_isSome _ _ ha hb

theorem marketData_pcmp_eq_iff (a b : MarketData) (ha : a.noNaN)
    (hb : b.noNaN) : MarketData.pcmp a b = some Ordering.eq ↔ a = b := by
  cases a <;> cases b <;>
    simp only [MarketData.pcmp, MarketData.noNaN] at ha hb ⊢ <;>
    first
    | simpa using trade_pcmp_eq_iff _ _ ha hb
    | simp

/-- Claim C7, amended: for every pair of `MarketEvent`s none of whose float
fields is NaN, the derived equality is exactly structural component-wise
equality, and the derived comparison is defined (`isSome`), detects equality
exactly, and is the lexicographic combination over `(sequence, data)`.  (For
events carrying a NaN float the claim as stated fails: such an event is not
even equal to itself, see the counterexample.) -/
theorem claim_c7_amended_structural (a b : MarketEvent) (ha : a.noNaN)
    (hb : b.noNaN) :
    (MarketEvent.beq a b = true ↔ a = b)
    ∧ (MarketEvent.pcmp a b).isSome = true
    ∧ (MarketEvent.pcmp a b = some Ordering.eq ↔ a = b)
    ∧ MarketEvent.pcmp a b =
        pthen (some (compare a.sequence.val b.sequence.val))
          (MarketData.pcmp a.data b.data) := by
  refine ⟨?_, ?_, ?_, rfl⟩
  · rw [MarketEvent.beq, MarketEvent.ext_iff]
    simp [marketData_beq_iff _ _ ha hb]
  · exact pthen_isSome _ _ (by simp) (marketData_pcmp_isSome _ _ ha hb)
  · rw [MarketEvent.pcmp, MarketEvent.ext_iff, pthen_eq_some_eq]
    simp only [Option.some.injEq]
    rw [Nat.compare_eq_eq, marketData_pcmp_eq_iff _ _ ha hb]
    exact and_congr_left' ⟨fun h => Sequence.ext h, fun h => by rw [h]⟩

/-- A trade whose price is NaN, and the event carrying it. -/
def nanTrade : Trade :=
  ⟨"t1", "binance", ⟨"btc", "usdt", .spot⟩, 0, 0, F64.nan, F64.val 1, .buy⟩

/-- The event carrying `nanTrade`. -/
def nanEvent : MarketEvent := ⟨⟨0⟩, .trade nanTrade⟩

/-- Counterexample to claim C7 as stated: `nanEvent` is component-wise equal
to itself (it *is* itself), yet the derived `PartialEq` rejects the pair and
the derived `PartialOrd` returns no ordering, because its price is NaN. -/
theorem claim_c7_counterexample :
    nanEvent.sequence = nanEvent.sequence
    ∧ nanEvent.data = nanEvent.data
    ∧ MarketEvent.beq nanEvent nanEvent = false
    ∧ MarketEvent.pcmp nanEvent nanEvent = none :=
  ⟨rfl, rfl, by decide, by decide⟩

/-- Concrete NaN-free trade for the C7 witness. -/
def sampleTrade : Trade :=
  ⟨"1", "binance", ⟨"btc", "usdt", .spot⟩, 10, 9, F64.val 100, F64.val 2, .buy⟩

/-- Concrete NaN-free event for the C7 witness. -/
def sampleEvent : MarketEvent := ⟨⟨0⟩, .trade sampleTrade⟩

/-- Second concrete NaN-free event for the C7 witness. -/
def sampleEvent2 : MarketEvent := ⟨⟨1⟩, .candle⟩

/-- Witness for the amended C7 at two concrete NaN-free events. -/
theorem claim_c7_witness :
    sampleEvent.noNaN ∧ sampleEvent2.noNaN
    ∧ ((MarketEvent.beq sampleEvent sampleEvent2 = true ↔
          sampleEvent = sampleEvent2)
      ∧ (MarketEvent.pcmp sampleEvent sampleEvent2).isSome = true
      ∧ (MarketEvent.pcmp sampleEvent sampleEvent2 = some Ordering.eq ↔
          sampleEvent = sampleEvent2)
      ∧ MarketEvent.pcmp sampleEvent sampleEvent2 =
          pthen (some (compare sampleEvent.sequence.val
            sampleEvent2.sequence.val))
            (MarketData.pcmp sampleEvent.data sampleEvent2.data)) :=
  ⟨⟨by decide, by decide⟩, trivial,
    claim_c7_amended_structural sampleEvent sampleEvent2
      ⟨by decide, by decide⟩ trivial⟩

/-! ### Multiplexing Transformer: per-Subscription sequencing (C1)

The transformer itself is not among the two source files; its sequencing step
is modelled from the spec.  The starting point, `StreamMeta::new` with
`Sequence(0)`, is from the source. -/

/-- Modelled from the spec: step 4 of the Multiplexing Transformer — for each
resulting change, construct exactly one NormalizedEvent: take the current
Sequence of that Subscription's StreamMeta, emit the event tagged with it,
then increment the Sequence by exactly 1. -/
def emitOne (meta : StreamMeta) (d : MarketData) : MarketEvent × StreamMeta :=
  (MarketEvent.new meta.sequence d,
    ⟨⟨meta.sequence.val + 1⟩, meta.subscription⟩)

/-- Modelled from the spec: the events emitted for one Subscription during a
connection's lifetime are produced one at a time, in order, each through
`emitOne`. -/
def emitAll (meta : StreamMeta) : List MarketData → List MarketEvent × StreamMeta
  | [] => ([], meta)
  | d :: ds =>
    let step := emitOne meta d
    let rest := emitAll step.2 ds
    (step.1 :: rest.1, rest.2)

theorem emitAll_sequences (ds : List MarketData) (meta : StreamMeta) :
    (emitAll meta ds).1.map (fun e => e.sequence.val) =
      List.range' meta.sequence.val ds.length := by
  induction ds generalizing meta with
  | nil => rfl
  | cons d ds ih =>
    simp only [emitAll, List.map_cons, List.length_cons, List.range'_succ]
    exact congrArg _ (ih _)

/-- Claim C1: within one connection's lifetime, the sequence values stamped
on the events emitted for a Subscription are exactly `0, 1, 2, …` with no
gaps and no repeats: the per-Subscription counter of `StreamMeta::new` starts
at 0 and is incremented by exactly 1 per emitted normalized event. -/
theorem claim_c1_sequence_exact_range (sub : Subscription)
    (ds : List MarketData) :
    (emitAll (StreamMeta.new sub) ds).1.map (fun e => e.sequence.val) =
      List.range ds.length := by
  rw [List.range_eq_range']
  exact emitAll_sequences ds (StreamMeta.new sub)

/-! ### Subscription Registry (C3)

Registry construction is not among the two source files; it is modelled from
the spec: build the `SubscriptionIds` correlation map, failing eagerly with
`DuplicateSubscriptionId` when two Subscriptions encode to the same id. -/

/-- Modelled from the spec: the error conditions fatal at registry build
time. -/
inductive RegistryError
  | duplicateSubscriptionId
  | unsupportedStreamKind
deriving DecidableEq

/-- `SubscriptionMeta` (`src/model.rs` lines 141-151); the `HashMap` becomes
an association list, the `WsMessage` payloads become strings. -/
structure SubscriptionMeta where
  ids : List (SubscriptionId × Subscription)
  expectedResponses : Nat
  subscriptions : List String

/-- Membership test on the association-list correlation map. -/
def containsId (acc : List (SubscriptionId × Subscription))
    (k : SubscriptionId) : Bool :=
  acc.any (fun e => decide (e.1 = k))

/-- Modelled from the spec: fold the Subscriptions into the correlation map,
failing with `DuplicateSubscriptionId` as soon as an encoded id is already
present. -/
def buildIds (encode : Subscription → SubscriptionId)
    (acc : List (SubscriptionId × Subscription)) :
    List Subscription →
      Except RegistryError (List (SubscriptionId × Subscription))
  | [] => Except.ok acc
  | s :: rest =>
    if containsId acc (encode s) then
      Except.error RegistryError.duplicateSubscriptionId
    else buildIds encode (acc ++ [(encode s, s)]) rest

/-- Modelled from the spec: registry construction — validate the correlation
map, then assemble the `SubscriptionMeta` build artifact. -/
def buildSubscriptionMeta (encode : Subscription → SubscriptionId)
    (payload : Subscription → String) (subs : List Subscription) :
    Except RegistryError SubscriptionMeta :=
  (buildIds encode [] subs).map
    (fun ids => ⟨ids, subs.length, subs.map payload⟩)

theorem containsId_eq_true_iff (acc : List (SubscriptionId × Subscription))
    (k : SubscriptionId) :
    containsId acc k = true ↔ ∃ e ∈ acc, e.1 = k := by
  simp [containsId]

theorem buildIds_error (encode : Subscription → SubscriptionId)
    (subs : List Subscription) :
    ∀ acc, (acc.map Prod.fst).Nodup →
      ¬ (acc.map Prod.fst ++ subs.map encode).Nodup →
      buildIds encode acc subs =
        Except.error RegistryError.duplicateSubscriptionId := by
  induction subs with
  | nil =>
    intro acc hacc hdup
    exact absurd (by simpa using hacc) hdup
  | cons s rest ih =>
    intro acc hacc hdup
    rw [buildIds]
    rcases hc : containsId acc (encode s) with hc' | hc'
    · simp only [Bool.false_eq_true, if_false]
      have hmem : encode s ∉ acc.map Prod.fst := by
        intro hk
        rcases List.mem_map.mp hk with ⟨e, he, hfe⟩
        have ht : containsId acc (encode s) = true :=
          (containsId_eq_true_iff acc (encode s)).mpr ⟨e, he, hfe⟩
        simp [hc] at ht
      apply ih
      · simp only [List.map_append, List.map_cons, List.map_nil]
        rw [List.nodup_append]
        exact ⟨hacc, by simp, by simpa using hmem⟩
      · intro hnd
        apply hdup
        simpa [List.append_assoc] using hnd
    · simp

/-- Claim C3: whenever two distinct Subscriptions in the collection encode to
the same SubscriptionId, registry construction fails with
`DuplicateSubscriptionId` at construction time — it never succeeds and defers
the collision to runtime. -/
theorem claim_c3_duplicate_id_fails (encode : Subscription → SubscriptionId)
    (payload : Subscription → String) (subs : List Subscription)
    (i j : Nat) (hi : i < subs.length) (hj : j < subs.length) (hij : i ≠ j)
    (_hne : subs.get ⟨i, hi⟩ ≠ subs.get ⟨j, hj⟩)
    (henc : encode (subs.get ⟨i, hi⟩) = encode (subs.get ⟨j, hj⟩)) :
    buildSubscriptionMeta encode payload subs =
      Except.error RegistryError.duplicateSubscriptionId := by
  have hdup : ¬ (subs.map encode).Nodup := by
    intro hnd
    rw [List.nodup_iff_injective_get] at hnd
    apply hij
    have hgi : (subs.map encode).get ⟨i, by simpa using hi⟩ =
        (subs.map encode).get ⟨j, by simpa using hj⟩ := by
      simp only [List.get_eq_getElem, List.getElem_map]
      simpa [List.get_eq_getElem] using henc
    simpa using congrArg Fin.val (hnd hgi)
  have herr := buildIds_error encode subs [] (by simp) (by simpa using hdup)
  simp [buildSubscriptionMeta, herr, Except.map]

/-- Concrete colliding registry input for the C3 witness: two distinct
Subscriptions whose (degenerate) exchange encoding produces the same id. -/
def collidingSubs : List Subscription :=
  [⟨⟨"btc", "usdt", .spot⟩, .trades⟩, ⟨⟨"eth", "usdt", .spot⟩, .trades⟩]

/-- Witness for C3 at the concrete colliding input. -/
theorem claim_c3_witness :
    buildSubscriptionMeta (fun _ => ⟨"x@depth"⟩) Subscription.displayFmt
      collidingSubs = Except.error RegistryError.duplicateSubscriptionId :=
  claim_c3_duplicate_id_fails (fun _ => ⟨"x@depth"⟩) Subscription.displayFmt
    collidingSubs 0 1 (by decide) (by decide) (by decide) (by decide) rfl

/-! ### Book Updater: price-level ladders (C4)

The Book Updater is not among the two source files; the ladder maintenance is
modelled from the spec.  A ladder is a list of `(price, quantity)` levels kept
sorted by the side's precedence (bids: higher price first, asks: lower price
first).  Prices and quantities are the parsed decimals, embedded as
rationals. -/

/-- A price level: `(price, quantity)`. -/
abbrev Level := ℚ × ℚ

/-- The precedence function of a side, as a strict total order on prices:
`irrefl`, `trans` and `total` make it one. -/
structure SideOrder (lt : ℚ → ℚ → Bool) : Prop where
  irrefl : ∀ a, lt a a = false
  trans : ∀ a b c, lt a b = true → lt b c = true → lt a c = true
  total : ∀ a b, a ≠ b → lt a b = true ∨ lt b a = true

theorem SideOrder.ne {lt : ℚ → ℚ → Bool} (h : SideOrder lt) {a b : ℚ}
    (hab : lt a b = true) : a ≠ b := by
  intro he
  subst he
  rw [h.irrefl a] at hab
  exact absurd hab (by simp)

theorem SideOrder.asymm {lt : ℚ → ℚ → Bool} (h : SideOrder lt) {a b : ℚ}
    (hab : lt a b = true) : lt b a = false := by
  rcases hba : lt b a with h1 | h1
  · rfl
  · have := h.trans a b a hab hba
    rw [h.irrefl a] at this
    exact absurd this (by simp)

/-- Modelled from the spec: incremental application of one price-level change
to a sorted ladder — insert the level at its position, replace the level at an
existing price, or, on zero quantity, remove the level at that price. -/
def applyLevel (lt : ℚ → ℚ → Bool) : List Level → ℚ → ℚ → List Level
  | [], p, q => if q = 0 then [] else [(p, q)]
  | (p', q') :: t, p, q =>
    if lt p p' then
      if q = 0 then (p', q') :: t else (p, q) :: (p', q') :: t
    else if p = p' then
      if q = 0 then t else (p, q) :: t
    else (p', q') :: applyLevel lt t p q

/-- Insertion by precedence, the naive reference's sorting primitive. -/
def insertLevel (lt : ℚ → ℚ → Bool) (x : Level) : List Level → List Level
  | [] => [x]
  | y :: t => if lt x.1 y.1 then x :: y :: t else y :: insertLevel lt x t

/-- Naive insertion sort by precedence. -/
def sortLevels (lt : ℚ → ℚ → Bool) : List Level → List Level
  | [] => []
  | x :: t => insertLevel lt x (sortLevels lt t)

/-- Modelled from the spec: the naive reference implementation of one delta —
drop any existing level at the delta's price, add the new level unless its
quantity is zero, and re-sort the whole ladder from scratch. -/
def naiveApply (lt : ℚ → ℚ → Bool) (l : List Level) (p q : ℚ) : List Level :=
  sortLevels lt ((if q = 0 then [] else [(p, q)]) ++
    l.filter (fun x => decide (x.1 ≠ p)))

/-- The ladder invariant: levels strictly sorted by the side's precedence. -/
def SortedLadder (lt : ℚ → ℚ → Bool) (l : List Level) : Prop :=
  l.Pairwise (fun a b => lt a.1 b.1 = true)

theorem sortedLadder_nil (lt : ℚ → ℚ → Bool) : SortedLadder lt [] :=
  List.Pairwise.nil

theorem sortedLadder_cons {lt : ℚ → ℚ → Bool} {x : Level} {t : List Level} :
    SortedLadder lt (x :: t) ↔
      (∀ y ∈ t, lt x.1 y.1 = true) ∧ SortedLadder lt t :=
  List.pairwise_cons

theorem sortedLadder_filter {lt : ℚ → ℚ → Bool} {l : List Level}
    (h : SortedLadder lt l) (pred : Level → Bool) :
    SortedLadder lt (l.filter pred) :=
  List.Pairwise.filter pred h

theorem sortedLadder_keys_nodup {lt : ℚ → ℚ → Bool} {l : List Level}
    (ho : SideOrder lt) (h : SortedLadder lt l) :
    (l.map Prod.fst).Nodup := by
  have hp : l.Pairwise (fun a b => a.1 ≠ b.1) :=
    h.imp (fun hab => ho.ne hab)
  simpa [List.Nodup, List.pairwise_map] using hp

theorem insertLevel_perm (lt : ℚ → ℚ → Bool) (x : Level) (l : List Level) :
    List.Perm (insertLevel lt x l) (x :: l) := by
  induction l with
  | nil => exact List.Perm.refl _
  | cons y t ih =>
    rw [insertLevel]
    rcases h : lt x.1 y.1 with h1 | h1
    · simp only [Bool.false_eq_true, if_false]
      exact ((ih.cons y).trans (List.Perm.swap x y t))
    · simp only [if_true]
      exact List.Perm.refl _

theorem sortLevels_perm (lt : ℚ → ℚ → Bool) (l : List Level) :
    List.Perm (sortLevels lt l) l := by
  induction l with
  | nil => exact List.Perm.refl _
  | cons x t ih =>
    exact (insertLevel_perm lt x (sortLevels lt t)).trans (ih.cons x)

theorem insertLevel_of_forall {lt : ℚ → ℚ → Bool} (x : Level)
    (l : List Level) (h : ∀ y ∈ l, lt x.1 y.1 = true) :
    insertLevel lt x l = x :: l := by
  cases l with
  | nil => rfl
  | cons y t =>
    rw [insertLevel, if_pos (h y (List.mem_cons_self y t))]

theorem sortLevels_of_sorted {lt : ℚ → ℚ → Bool} {l : List Level}
    (h : SortedLadder lt l) : sortLevels lt l = l := by
  induction l with
  | nil => rfl
  | cons x t ih =>
    rcases sortedLadder_cons.mp h with ⟨hx, ht⟩
    rw [sortLevels, ih ht, insertLevel_of_forall x t hx]

theorem insertLevel_sorted {lt : ℚ → ℚ → Bool} (ho : SideOrder lt)
    {x : Level} {l : List Level} (h : SortedLadder lt l)
    (hx : x.1 ∉ l.map Prod.fst) : SortedLadder lt (insertLevel lt x l) := by
  induction l with
  | nil => exact List.pairwise_singleton _ _
  | cons y t ih =>
    rcases sortedLadder_cons.mp h with ⟨hy, ht⟩
    have hxy : x.1 ≠ y.1 := by
      intro he
      exact hx (by simp [he])
    have hxt : x.1 ∉ t.map Prod.fst := by
      intro hm
      exact hx (by simp [hm])
    rw [insertLevel]
    rcases hc : lt x.1 y.1 with h1 | h1
    · simp only [Bool.false_eq_true, if_false]
      have hyx : lt y.1 x.1 = true := by
        rcases ho.total x.1 y.1 hxy with h2 | h2
        · exact absurd h2 (by simp [hc])
        · exact h2
      rw [sortedLadder_cons]
      refine ⟨?_, ih ht hxt⟩
      intro z hz
      have hz' : z ∈ x :: t := (insertLevel_perm lt x t).mem_iff.mp hz
      rcases List.mem_cons.mp hz' with rfl | hz''
      · exact hyx
      · exact hy z hz''
    · simp only [if_true]
      rw [sortedLadder_cons]
      refine ⟨?_, h⟩
      intro z hz
      rcases List.mem_cons.mp hz with rfl | hz'
      · exact hc
      · exact ho.trans x.1 y.1 z.1 hc (hy z hz')

theorem sortLevels_sorted {lt : ℚ → ℚ → Bool} (ho : SideOrder lt)
    {l : List Level} (h : (l.map Prod.fst).Nodup) :
    SortedLadder lt (sortLevels lt l) := by
  induction l with
  | nil => exact sortedLadder_nil lt
  | cons x t ih =>
    simp only [List.map_cons, List.nodup_cons] at h
    rcases h with ⟨hx, ht⟩
    refine insertLevel_sorted ho (ih ht) ?_
    intro hm
    apply hx
    have : x.1 ∈ (sortLevels lt t).map Prod.fst := hm
    exact ((sortLevels_perm lt t).map Prod.fst).mem_iff.mp this

theorem filter_ne_noop {p : ℚ} {l : List Level}
    (h : ∀ x ∈ l, x.1 ≠ p) :
    l.filter (fun x => decide (x.1 ≠ p)) = l :=
  List.filter_eq_self.mpr (fun a ha => by simpa using h a ha)

theorem applyLevel_eq_naive {lt : ℚ → ℚ → Bool} (ho : SideOrder lt) :
    ∀ {l : List Level} (p q : ℚ), SortedLadder lt l →
      applyLevel lt l p q = naiveApply lt l p q := by
  intro l
  induction l with
  | nil =>
    intro p q _
    by_cases hq : q = 0 <;>
      simp [applyLevel, naiveApply, hq, sortLevels, insertLevel]
  | cons hd t ih =>
    obtain ⟨p', q'⟩ := hd
    intro p q hs
    rcases sortedLadder_cons.mp hs with ⟨hall, ht⟩
    rw [applyLevel]
    by_cases hpp : lt p p' = true
    · rw [if_pos hpp]
      have hnot : ∀ x ∈ (p', q') :: t, x.1 ≠ p := by
        intro x hx
        rcases List.mem_cons.mp hx with rfl | hx'
        · exact fun he => (ho.ne hpp) he.symm
        · exact fun he =>
            (ho.ne (ho.trans p p' x.1 hpp (hall x hx'))) he.symm
      have hfil : ((p', q') :: t).filter (fun x => decide (x.1 ≠ p)) =
          (p', q') :: t := filter_ne_noop hnot
      by_cases hq : q = 0
      · rw [if_pos hq, naiveApply, if_pos hq, hfil, List.nil_append,
          sortLevels_of_sorted hs]
      · have hfor : ∀ y ∈ (p', q') :: t, lt p y.1 = true := by
          intro y hy
          rcases List.mem_cons.mp hy with rfl | hy'
          · exact hpp
          · exact ho.trans p p' y.1 hpp (hall y hy')
        rw [if_neg hq, naiveApply, if_neg hq, hfil, List.singleton_append,
          sortLevels, sortLevels_of_sorted hs,
          insertLevel_of_forall (p, q) ((p', q') :: t) hfor]
    · rw [if_neg hpp]
      by_cases hpe : p = p'
      · rw [if_pos hpe]
        subst hpe
        have hnott : ∀ x ∈ t, x.1 ≠ p := by
          intro x hx
          exact fun he => (ho.ne (hall x hx)) he.symm
        have hfil : ((p, q') :: t).filter (fun x => decide (x.1 ≠ p)) = t := by
          rw [List.filter_cons, if_neg (by simp)]
          exact filter_ne_noop hnott
        by_cases hq : q = 0
        · rw [if_pos hq, naiveApply, if_pos hq, hfil, List.nil_append,
            sortLevels_of_sorted ht]
        · have hall' : ∀ y ∈ t, lt (p, q).1 y.1 = true := hall
          rw [if_neg hq, naiveApply, if_neg hq, hfil, List.singleton_append,
            sortLevels, sortLevels_of_sorted ht,
            insertLevel_of_forall (p, q) t hall']
      · rw [if_neg hpe]
        have hgt : lt p' p = true := by
          rcases ho.total p p' hpe with h2 | h2
          · exact absurd h2 hpp
          · exact h2
        have hfil : ((p', q') :: t).filter (fun x => decide (x.1 ≠ p)) =
            (p', q') :: t.filter (fun x => decide (x.1 ≠ p)) := by
          rw [List.filter_cons]
          simp only [decide_eq_true_eq]
          rw [if_pos (fun he => hpe he.symm)]
        have hft : SortedLadder lt (t.filter (fun x => decide (x.1 ≠ p))) :=
          sortedLadder_filter ht _
        have hfor : ∀ y ∈ t.filter (fun x => decide (x.1 ≠ p)),
            lt p' y.1 = true := by
          intro y hy
          exact hall y (List.mem_of_mem_filter hy)
        rw [ih p q ht, naiveApply, naiveApply, hfil]
        by_cases hq : q = 0
        · simp only [if_pos hq, List.nil_append]
          rw [sortLevels, sortLevels_of_sorted hft,
            insertLevel_of_forall (p', q')
              (t.filter (fun x => decide (x.1 ≠ p))) hfor]
        · simp only [if_neg hq, List.singleton_append]
          rw [sortLevels, sortLevels, sortLevels_of_sorted hft, sortLevels,
            sortLevels_of_sorted hft,
            insertLevel_of_forall (p', q')
              (t.filter (fun x => decide (x.1 ≠ p))) hfor,
            insertLevel, if_neg hpp]

theorem mem_applyLevel {lt : ℚ → ℚ → Bool} :
    ∀ {l : List Level} {p q : ℚ} {z : Level},
      z ∈ applyLevel lt l p q → z ∈ l ∨ z = (p, q) := by
  intro l
  induction l with
  | nil =>
    intro p q z hz
    rw [applyLevel] at hz
    by_cases hq : q = 0 <;> simp [hq] at hz
    exact Or.inr hz
  | cons hd t ih =>
    obtain ⟨p', q'⟩ := hd
    intro p q z hz
    rw [applyLevel] at hz
    by_cases h1 : lt p p' = true
    · rw [if_pos h1] at hz
      by_cases hq : q = 0
      · rw [if_pos hq] at hz
        exact Or.inl hz
      · rw [if_neg hq] at hz
        rcases List.mem_cons.mp hz with rfl | hz'
        · exact Or.inr rfl
        · exact Or.inl hz'
    · rw [if_neg h1] at hz
      by_cases h2 : p = p'
      · rw [if_pos h2] at hz
        by_cases hq : q = 0
        · rw [if_pos hq] at hz
          exact Or.inl (List.mem_cons_of_mem _ hz)
        · rw [if_neg hq] at hz
          rcases List.mem_cons.mp hz with rfl | hz'
          · exact Or.inr rfl
          · exact Or.inl (List.mem_cons_of_mem _ hz')
      · rw [if_neg h2] at hz
        rcases List.mem_cons.mp hz with rfl | hz'
        · exact Or.inl (List.mem_cons_self _ _)
        · rcases ih hz' with hm | hm
          · exact Or.inl (List.mem_cons_of_mem _ hm)
          · exact Or.inr hm

theorem applyLevel_sorted {lt : ℚ → ℚ → Bool} (ho : SideOrder lt) :
    ∀ {l : List Level} (p q : ℚ), SortedLadder lt l →
      SortedLadder lt (applyLevel lt l p q) := by
  intro l
  induction l with
  | nil =>
    intro p q _
    rw [applyLevel]
    by_cases hq : q = 0
    · rw [if_pos hq]; exact sortedLadder_nil lt
    · rw [if_neg hq]; exact List.pairwise_singleton _ _
  | cons hd t ih =>
    obtain ⟨p', q'⟩ := hd
    intro p q hs
    rcases sortedLadder_cons.mp hs with ⟨hall, ht⟩
    rw [applyLevel]
    by_cases h1 : lt p p' = true
    · rw [if_pos h1]
      by_cases hq : q = 0
      · rw [if_pos hq]; exact hs
      · rw [if_neg hq]
        rw [sortedLadder_cons]
        refine ⟨?_, hs⟩
        intro y hy
        rcases List.mem_cons.mp hy with rfl | hy'
        · exact h1
        · exact ho.trans p p' y.1 h1 (hall y hy')
    · rw [if_neg h1]
      by_cases h2 : p = p'
      · rw [if_pos h2]
        subst h2
        by_cases hq : q = 0
        · rw [if_pos hq]; exact ht
        · rw [if_neg hq]
          rw [sortedLadder_cons]
          exact ⟨hall, ht⟩
      · rw [if_neg h2]
        rw [sortedLadder_cons]
        refine ⟨?_, ih p q ht⟩
        intro y hy
        rcases mem_applyLevel hy with hm | hm
        · exact hall y hm
        · subst hm
          rcases ho.total p p' h2 with h3 | h3
          · exact absurd h3 h1
          · exact h3

theorem applyLevel_zero_removes {lt : ℚ → ℚ → Bool} (ho : SideOrder lt) :
    ∀ {l : List Level} (p : ℚ), SortedLadder lt l →
      p ∉ (applyLevel lt l p 0).map Prod.fst := by
  intro l
  induction l with
  | nil =>
    intro p _
    simp [applyLevel]
  | cons hd t ih =>
    obtain ⟨p', q'⟩ := hd
    intro p hs
    rcases sortedLadder_cons.mp hs with ⟨hall, ht⟩
    rw [applyLevel]
    by_cases h1 : lt p p' = true
    · rw [if_pos h1, if_pos rfl]
      intro hm
      rcases List.mem_map.mp hm with ⟨y, hy, hfy⟩
      rcases List.mem_cons.mp hy with rfl | hy'
      · exact (ho.ne h1) hfy.symm
      · exact (ho.ne (ho.trans p p' y.1 h1 (hall y hy'))) hfy.symm
    · rw [if_neg h1]
      by_cases h2 : p = p'
      · rw [if_pos h2, if_pos rfl]
        subst h2
        intro hm
        rcases List.mem_map.mp hm with ⟨y, hy, hfy⟩
        exact (ho.ne (hall y hy)) hfy.symm
      · rw [if_neg h2]
        intro hm
        rcases List.mem_map.mp hm with ⟨y, hy, hfy⟩
        rcases List.mem_cons.mp hy with rfl | hy'
        · exact h2 hfy.symm
        · exact (ih p ht) (List.mem_map.mpr ⟨y, hy', hfy⟩)

/-- Fold a sequence of deltas through the incremental updater. -/
def applyDeltas (lt : ℚ → ℚ → Bool) (l : List Level) (ds : List Level) :
    List Level :=
  ds.foldl (fun acc d => applyLevel lt acc d.1 d.2) l

/-- Fold the same deltas through the naive reference implementation. -/
def naiveDeltas (lt : ℚ → ℚ → Bool) (l : List Level) (ds : List Level) :
    List Level :=
  ds.foldl (fun acc d => naiveApply lt acc d.1 d.2) l

theorem applyDeltas_sorted {lt : ℚ → ℚ → Bool} (ho : SideOrder lt) :
    ∀ (ds : List Level) {l : List Level}, SortedLadder lt l →
      SortedLadder lt (applyDeltas lt l ds) := by
  intro ds
  induction ds with
  | nil => intro l h; exact h
  | cons d ds ih =>
    intro l h
    rw [applyDeltas, List.foldl_cons]
    exact ih (applyLevel_sorted ho d.1 d.2 h)

theorem applyDeltas_eq_naive {lt : ℚ → ℚ → Bool} (ho : SideOrder lt) :
    ∀ (ds : List Level) {l : List Level}, SortedLadder lt l →
      applyDeltas lt l ds = naiveDeltas lt l ds := by
  intro ds
  induction ds with
  | nil => intro l _; rfl
  | cons d ds ih =>
    intro l h
    rw [applyDeltas, List.foldl_cons, naiveDeltas, List.foldl_cons,
      ← applyLevel_eq_naive ho d.1 d.2 h]
    exact ih (applyLevel_sorted ho d.1 d.2 h)

/-- Bid-side precedence: higher price first. -/
def bidLt (a b : ℚ) : Bool := decide (b < a)

/-- Ask-side precedence: lower price first. -/
def askLt (a b : ℚ) : Bool := decide (a < b)

theorem bidLt_sideOrder : SideOrder bidLt := by
  refine ⟨fun a => by simp [bidLt], fun a b c h1 h2 => ?_, fun a b h => ?_⟩
  · simp only [bidLt, decide_eq_true_eq] at h1 h2 ⊢
    exact lt_trans h2 h1
  · rcases lt_or_gt_of_ne h with h' | h'
    · exact Or.inr (by simp [bidLt, h'])
    · exact Or.inl (by simp [bidLt, h'])

theorem askLt_sideOrder : SideOrder askLt := by
  refine ⟨fun a => by simp [askLt], fun a b c h1 h2 => ?_, fun a b h => ?_⟩
  · simp only [askLt, decide_eq_true_eq] at h1 h2 ⊢
    exact lt_trans h1 h2
  · rcases lt_or_gt_of_ne h with h' | h'
    · exact Or.inl (by simp [askLt, h'])
    · exact Or.inr (by simp [askLt, h'])

theorem sortedLadder_bid_iff (l : List Level) :
    SortedLadder bidLt l ↔ l.Pairwise (fun x y : Level => y.1 < x.1) := by
  constructor
  · exact fun h => h.imp (fun hab => by simpa [bidLt] using hab)
  · exact fun h => h.imp (fun hab => by simpa [bidLt] using hab)

theorem sortedLadder_ask_iff (l : List Level) :
    SortedLadder askLt l ↔ l.Pairwise (fun x y : Level => x.1 < y.1) := by
  constructor
  · exact fun h => h.imp (fun hab => by simpa [askLt] using hab)
  · exact fun h => h.imp (fun hab => by simpa [askLt] using hab)

/-- Claim C4: for every snapshot (with distinct prices per side) followed by
any sequence of valid deltas, the incrementally reconstructed ladder equals
the ladder produced by the naive reference implementation applied to the same
deltas; after every price-level update the bid ladder is sorted strictly
descending by price and the ask ladder strictly ascending, with no duplicate
price levels; and a delta with quantity zero removes the level at that
price. -/
theorem claim_c4_book_refinement
    (snapBids snapAsks deltaBids deltaAsks : List Level)
    (hb : (snapBids.map Prod.fst).Nodup)
    (ha : (snapAsks.map Prod.fst).Nodup) :
    applyDeltas bidLt (sortLevels bidLt snapBids) deltaBids =
      naiveDeltas bidLt (sortLevels bidLt snapBids) deltaBids
    ∧ applyDeltas askLt (sortLevels askLt snapAsks) deltaAsks =
      naiveDeltas askLt (sortLevels askLt snapAsks) deltaAsks
    ∧ (∀ n,
        (applyDeltas bidLt (sortLevels bidLt snapBids)
          (deltaBids.take n)).Pairwise (fun x y => y.1 < x.1)
        ∧ ((applyDeltas bidLt (sortLevels bidLt snapBids)
            (deltaBids.take n)).map Prod.fst).Nodup)
    ∧ (∀ n,
        (applyDeltas askLt (sortLevels askLt snapAsks)
          (deltaAsks.take n)).Pairwise (fun x y => x.1 < y.1)
        ∧ ((applyDeltas askLt (sortLevels askLt snapAsks)
            (deltaAsks.take n)).map Prod.fst).Nodup)
    ∧ (∀ (l : List Level) (p : ℚ), SortedLadder bidLt l →
        p ∉ (applyLevel bidLt l p 0).map Prod.fst)
    ∧ (∀ (l : List Level) (p : ℚ), SortedLadder askLt l →
        p ∉ (applyLevel askLt l p 0).map Prod.fst) := by
  have hsb : SortedLadder bidLt (sortLevels bidLt snapBids) :=
    sortLevels_sorted bidLt_sideOrder hb
  have hsa : SortedLadder askLt (sortLevels askLt snapAsks) :=
    sortLevels_sorted askLt_sideOrder ha
  refine ⟨applyDeltas_eq_naive bidLt_sideOrder deltaBids hsb,
    applyDeltas_eq_naive askLt_sideOrder deltaAsks hsa, ?_, ?_, ?_, ?_⟩
  · intro n
    have h1 := applyDeltas_sorted bidLt_sideOrder (deltaBids.take n) hsb
    exact ⟨(sortedLadder_bid_iff _).mp h1,
      sortedLadder_keys_nodup bidLt_sideOrder h1⟩
  · intro n
    have h1 := applyDeltas_sorted askLt_sideOrder (deltaAsks.take n) hsa
    exact ⟨(sortedLadder_ask_iff _).mp h1,
      sortedLadder_keys_nodup askLt_sideOrder h1⟩
  · exact fun l p hl => applyLevel_zero_removes bidLt_sideOrder p hl
  · exact fun l p hl => applyLevel_zero_removes askLt_sideOrder p hl

/-- Witness for C4 at the spec's concrete scenario: snapshot bids
`[(100, 1)]`, asks `[(101, 2)]`, one bid delta removing the bid at 100 with
quantity zero, no ask deltas. -/
theorem claim_c4_witness :
    applyDeltas bidLt (sortLevels bidLt [((100 : ℚ), (1 : ℚ))])
        [((100 : ℚ), (0 : ℚ))] =
      naiveDeltas bidLt (sortLevels bidLt [((100 : ℚ), (1 : ℚ))])
        [((100 : ℚ), (0 : ℚ))]
    ∧ applyDeltas askLt (sortLevels askLt [((101 : ℚ), (2 : ℚ))]) [] =
      naiveDeltas askLt (sortLevels askLt [((101 : ℚ), (2 : ℚ))]) []
    ∧ (∀ n,
        (applyDeltas bidLt (sortLevels bidLt [((100 : ℚ), (1 : ℚ))])
          (List.take n [((100 : ℚ), (0 : ℚ))])).Pairwise
            (fun x y => y.1 < x.1)
        ∧ ((applyDeltas bidLt (sortLevels bidLt [((100 : ℚ), (1 : ℚ))])
            (List.take n [((100 : ℚ), (0 : ℚ))])).map Prod.fst).Nodup)
    ∧ (∀ n,
        (applyDeltas askLt (sortLevels askLt [((101 : ℚ), (2 : ℚ))])
          (List.take n [])).Pairwise (fun x y => x.1 < y.1)
        ∧ ((applyDeltas askLt (sortLevels askLt [((101 : ℚ), (2 : ℚ))])
            (List.take n [])).map Prod.fst).Nodup)
    ∧ (∀ (l : List Level) (p : ℚ), SortedLadder bidLt l →
        p ∉ (applyLevel bidLt l p 0).map Prod.fst)
    ∧ (∀ (l : List Level) (p : ℚ), SortedLadder askLt l →
        p ∉ (applyLevel askLt l p 0).map Prod.fst) :=
  claim_c4_book_refinement [((100 : ℚ), (1 : ℚ))] [((101 : ℚ), (2 : ℚ))]
    [((100 : ℚ), (0 : ℚ))] [] (by decide) (by decide)

/-! ### Book Updater state machine (C2) -/

/-- The two price-level ladders of a reconstructed book. -/
structure OrderBook where
  bids : List Level
  asks : List Level
deriving DecidableEq

/-- Modelled from the spec: the Book Updater's per-Subscription lifecycle
states — `Uninitialized → Initialized → {Initialized, Desynced}`, with
`Desynced` looping back to `Initialized` via re-snapshot.  An `Initialized`
state stores the ladder and the exchange-native last-applied update id. -/
inductive BookState
  | uninitialized
  | initialized (book : OrderBook) (lastUpdateId : Nat)
  | desynced
deriving DecidableEq

/-- Modelled from the spec: the inbound book frames — a full snapshot with
its native update id, or an incremental delta carrying its expected
predecessor id, its own update id, and the changed levels per side. -/
inductive BookMessage
  | snapshot (updateId : Nat) (bids asks : List Level)
  | delta (predId updateId : Nat) (bids asks : List Level)
deriving DecidableEq

/-- Whether the frame is a delta. -/
def BookMessage.isDelta : BookMessage → Bool
  | .delta _ _ _ _ => true
  | _ => false

/-- Modelled from the spec: build the ladder from a snapshot. -/
def buildBook (bids asks : List Level) : OrderBook :=
  ⟨sortLevels bidLt bids, sortLevels askLt asks⟩

/-- Modelled from the spec: apply a delta's level changes to both sides. -/
def applyChanges (b : OrderBook) (bids asks : List Level) : OrderBook :=
  ⟨applyDeltas bidLt b.bids bids, applyDeltas askLt b.asks asks⟩

/-- Modelled from the spec: one step of the Book Updater state machine.
A snapshot (re)builds the ladder and moves to `Initialized`, emitting a book
change; a delta while `Initialized` is applied only when its predecessor id
matches the stored last-applied id, otherwise the state becomes `Desynced`
with no event; deltas while `Uninitialized` are discarded (per the modelled
exchange's convention); deltas while `Desynced` are discarded. -/
def bookUpdate : BookState → BookMessage → BookState × List MarketData
  | .uninitialized, .snapshot i bs as =>
    (.initialized (buildBook bs as) i, [MarketData.orderBook])
  | .uninitialized, .delta _ _ _ _ => (.uninitialized, [])
  | .initialized book last, .delta pred next bs as =>
    if pred = last then
      (.initialized (applyChanges book bs as) next, [MarketData.orderBook])
    else (.desynced, [])
  | .initialized _ _, .snapshot i bs as =>
    (.initialized (buildBook bs as) i, [MarketData.orderBook])
  | .desynced, .delta _ _ _ _ => (.desynced, [])
  | .desynced, .snapshot i bs as =>
    (.initialized (buildBook bs as) i, [MarketData.orderBook])

/-- Run the Book Updater over a list of frames, collecting emitted events. -/
def bookRun : BookState → List BookMessage → BookState × List MarketData
  | s, [] => (s, [])
  | s, m :: ms =>
    let step := bookUpdate s m
    let rest := bookRun step.1 ms
    (rest.1, step.2 ++ rest.2)

theorem bookRun_desynced (ms : List BookMessage)
    (hms : ∀ m ∈ ms, m.isDelta = true) :
    bookRun BookState.desynced ms = (BookState.desynced, []) := by
  induction ms with
  | nil => rfl
  | cons m ms ih =>
    cases m with
    | snapshot i bs as =>
      exact absurd (hms _ (List.mem_cons_self _ _)) (by simp [BookMessage.isDelta])
    | delta pred next bs as =>
      rw [bookRun]
      simp only [bookUpdate]
      rw [ih (fun m hm => hms m (List.mem_cons_of_mem _ hm))]
      rfl

/-- Claim C2: a delta whose predecessor id does not match the stored
last-applied id transitions the Book Updater to `Desynced` and emits zero
events for that frame; once `Desynced`, any further deltas are discarded
(state unchanged, zero events) until a fresh snapshot re-initializes the
ladder. -/
theorem claim_c2_gap_desync (book : OrderBook) (last pred next : Nat)
    (bs as : List Level) (h : pred ≠ last) (ms : List BookMessage)
    (hms : ∀ m ∈ ms, m.isDelta = true) :
    bookUpdate (BookState.initialized book last)
        (BookMessage.delta pred next bs as) = (BookState.desynced, [])
    ∧ bookRun BookState.desynced ms = (BookState.desynced, [])
    ∧ (∀ (i : Nat) (sb sa : List Level),
        bookUpdate BookState.desynced (BookMessage.snapshot i sb sa) =
          (BookState.initialized (buildBook sb sa) i, [MarketData.orderBook])) := by
  refine ⟨?_, bookRun_desynced ms hms, fun i sb sa => rfl⟩
  simp [bookUpdate, h]

/-- Witness for C2 at the spec's concrete gap scenario: book initialized from
the snapshot with update id 10, then a delta with predecessor id 15. -/
theorem claim_c2_witness :
    bookUpdate (BookState.initialized (buildBook [((100 : ℚ), (1 : ℚ))]
        [((101 : ℚ), (2 : ℚ))]) 10)
        (BookMessage.delta 15 16 [] []) = (BookState.desynced, [])
    ∧ bookRun BookState.desynced [BookMessage.delta 15 16 [] []] =
        (BookState.desynced, [])
    ∧ (∀ (i : Nat) (sb sa : List Level),
        bookUpdate BookState.desynced (BookMessage.snapshot i sb sa) =
          (BookState.initialized (buildBook sb sa) i,
            [MarketData.orderBook])) :=
  claim_c2_gap_desync
    (buildBook [((100 : ℚ), (1 : ℚ))] [((101 : ℚ), (2 : ℚ))]) 10 15 16 [] []
    (by decide) [BookMessage.delta 15 16 [] []] (by decide)

end BarterData
